import Mathlib

/-!
Verification of the PDF-sorting pipeline (`sort_pdfs.py`).

The pipeline is embedded shallowly: every helper of `sort_pdfs.py` becomes a
Lean function over explicit data (a PDF is its list of page texts, the
filesystem side effects are recorded in a `RunResult`). External libraries
(langdetect, hashlib, BERTopic, json) are parameters of the model, since the
repository treats them as opaque services. String manipulation is modelled on
the code-point level (`List Char`), matching Python string semantics.
-/

namespace SortPdfs

/-! String primitives used by the script, modelled on code points. -/

/-- Lower-case an ASCII letter; models Python `str.lower` on the ASCII range. -/
def asciiLower (c : Char) : Char :=
  if 'A' ≤ c ∧ c ≤ 'Z' then Char.ofNat (c.toNat + 32) else c

/-- Models Python `str.lower`. -/
def strLower (s : String) : String := ⟨s.data.map asciiLower⟩

/-- Models Python `str.endswith`. -/
def strEndsWith (s suf : String) : Bool := suf.data.isSuffixOf s.data

/-- Models Python `str.strip()`. -/
def strTrim (s : String) : String :=
  ⟨((s.data.dropWhile Char.isWhitespace).reverse.dropWhile Char.isWhitespace).reverse⟩

/-- Models Python `str.replace(a, b)` for one-character patterns, as used by
`move_pdf` (`topic.replace(" ", "_").replace("/", "_")`). -/
def replaceChar (a b : Char) (s : String) : String :=
  ⟨s.data.map (fun c => if c = a then b else c)⟩

/-- Models Python slicing `s[:n]`. -/
def strTake (s : String) (n : Nat) : String := ⟨s.data.take n⟩

/-- Decimal digit character, `d ↦ '0' + d`. -/
def digitChar (d : Nat) : Char := Char.ofNat (48 + d)

/-- Fuel-driven decimal rendering of a natural number (little recursion on the
first argument; with fuel at least `n` it renders `n` exactly as Python
`str(n)` does for positive `n`). -/
def natStrAux : Nat → Nat → List Char
  | 0, _ => []
  | _ + 1, 0 => []
  | fuel + 1, n + 1 => natStrAux fuel ((n + 1) / 10) ++ [digitChar ((n + 1) % 10)]

/-- Models Python `str(n)` for positive `n` (and renders `0` as `""`; the
script only renders the positive counter values). -/
def natStr (n : Nat) : String := ⟨natStrAux n n⟩

/-- Models `os.path.join(a, b)` for the relative-path arguments the script
builds. -/
def pathJoin (a b : String) : String := a ++ "/" ++ b

/-- Models `os.path.basename`. -/
def basename (p : String) : String := ⟨(p.data.reverse.takeWhile (· ≠ '/')).reverse⟩

/-- Index of the last occurrence of a character, as used by
`os.path.splitext`. -/
def lastIdxOf (c : Char) : List Char → Option Nat
  | [] => none
  | a :: rest =>
    match lastIdxOf c rest with
    | some i => some (i + 1)
    | none => if a = c then some 0 else none

/-- Models `os.path.splitext`: split at the final dot, unless every character
between the start of the final path component and that dot is itself a dot. -/
def splitext (p : String) : String × String :=
  let cs := p.data
  match lastIdxOf '.' cs with
  | none => (p, "")
  | some di =>
    let fi : Nat := match lastIdxOf '/' cs with | none => 0 | some s => s + 1
    if fi ≤ di then
      if ((cs.drop fi).take (di - fi)).any (· ≠ '.') then (⟨cs.take di⟩, ⟨cs.drop di⟩)
      else (p, "")
    else (p, "")

/-! Collision resolver `get_unique_path`.  The Python loop tries
`dest/file_name`, then `dest/base_1.ext`, `dest/base_2.ext`, … and returns the
first candidate outside `used`, adding it to `used`.  The loop is embedded
with explicit fuel `used.length + 1`, which the pigeonhole lemmas below show
is always sufficient. -/

/-- Candidate path number `n` tried by `get_unique_path`. -/
def candidate (dest base ext fileName : String) : Nat → String
  | 0 => pathJoin dest fileName
  | n + 1 => pathJoin dest (base ++ "_" ++ natStr (n + 1) ++ ext)

/-- Fueled transcription of the `while candidate in used` loop. -/
def get_unique_pathAux (dest base ext fileName : String) (used : List String) :
    Nat → Nat → String
  | 0, n => candidate dest base ext fileName n
  | fuel + 1, n =>
    if candidate dest base ext fileName n ∈ used then
      get_unique_pathAux dest base ext fileName used fuel (n + 1)
    else candidate dest base ext fileName n

/-- Models `get_unique_path(dest_folder, file_name, used)`: returns the chosen
path together with the updated used-path set (`used.add(candidate)`). -/
def get_unique_path (dest_folder file_name : String) (used : List String) :
    String × List String :=
  let be := splitext file_name
  let c := get_unique_pathAux dest_folder be.1 be.2 file_name used (used.length + 1) 0
  (c, c :: used)

/-! The pipeline data model.  A PDF is its listing name together with the
text of its pages (an empty string standing for a page with no extractable
text); the ML services (language detector, hash, topic model) and the JSON
parser are opaque parameters. -/

def SOURCE_FOLDER : String := "./pdfs"

def OUTPUT_FOLDER : String := "./sorted_pdfs"

def SAMPLE_PAGES : Nat := 10

/-- Page indices sampled by `extract_text`: first, middle and last page,
filtered to the valid range and deduplicated (Python
`list(set(i for i in segments if 0 <= i < total_pages))`). -/
def segments (total : Nat) : List Nat :=
  ([0, total / 2, total - 1].filter (fun i => decide (i < total))).dedup

/-- Models `extract_text(pdf_path, max_pages)`.  The body of the Python
function never uses `max_pages`; it concatenates the non-empty sampled page
texts, each followed by a space, and strips the result. -/
def extract_text (pages : List String) (maxPages : Nat) : String :=
  strTrim ((segments pages.length).foldl
    (fun acc i =>
      let pt := pages.getD i ""
      if pt = "" then acc else acc ++ pt ++ " ") "")

/-- Transcription of the SPEC's description of the extractor (front slice and
back slice of `budget/2` pages each, clipped and deduplicated), written only
to be compared against `extract_text`. -/
def extractTextSpec (pages : List String) (maxPages : Nat) : String :=
  let n := pages.length
  let idxs := ((List.range (maxPages / 2) ++
      (List.range (maxPages / 2)).map (fun k => n - maxPages / 2 + k)).filter
      (fun i => decide (i < n))).dedup
  strTrim (idxs.foldl
    (fun acc i =>
      let pt := pages.getD i ""
      if pt = "" then acc else acc ++ pt ++ " ") "")

/-- An input file: its directory-listing name and its page texts. -/
structure PdfFile where
  name : String
  pages : List String
deriving DecidableEq

/-- A result-cache entry `{text, language, hash}`. -/
structure CEntry where
  text : String
  language : String
  hash : Option String
deriving DecidableEq

/-- The results cache: a mapping from filename to cached entry. -/
abbrev RMap := List (String × CEntry)

/-- Dictionary lookup for the results cache. -/
def rmLookup (k : String) : RMap → Option CEntry
  | [] => none
  | (k', v) :: rest => if k' = k then some v else rmLookup k rest

/-- Dictionary update `cache[k] = v`. -/
def rmInsert (k : String) (v : CEntry) : RMap → RMap
  | [] => [(k, v)]
  | (k', v') :: rest => if k' = k then (k, v) :: rest else (k', v') :: rmInsert k v rest

/-- Source path of a listed file, `os.path.join(SOURCE_FOLDER, f)`. -/
def srcPath (nm : String) : String := pathJoin SOURCE_FOLDER nm

/-- Models `process_pdf(path)`: the returned tuple
`(path, text, language, hash)`, with the language detector and the hash
function passed in as the opaque services they are. -/
def process_pdf (langOf hashOf : String → String) (samplePages : Nat) (f : PdfFile) :
    String × String × String × Option String :=
  let text := extract_text f.pages samplePages
  if strTrim text = "" then (srcPath f.name, "", "unknown", none)
  else (srcPath f.name, text, langOf text, some (hashOf text))

/-- Models `move_pdf(path, language, topic, used_paths)` up to its filesystem
effects: it computes the sanitized destination and delegates to
`get_unique_path`, returning the final path and the grown used-path set. -/
def move_pdf (path language topic : String) (used : List String) :
    String × List String :=
  let file_name := basename path
  let safe_topic := strTake (replaceChar '/' '_' (replaceChar ' ' '_' topic)) 50
  let dest_folder := pathJoin (pathJoin OUTPUT_FOLDER language) safe_topic
  get_unique_path dest_folder file_name used

/-- Models `load_hash_cache()`.  The Python code only guards against a missing
file; a malformed file makes `json.load` raise, which propagates (modelled as
`Except.error`). -/
def load_hash_cache (parseStrList : String → Option (List String))
    (file : Option String) : Except Unit (List String) :=
  match file with
  | none => Except.ok []
  | some s =>
    match parseStrList s with
    | some hs => Except.ok hs
    | none => Except.error ()

/-- Models `load_results_cache()`, with the same missing-versus-malformed
behaviour as `load_hash_cache`. -/
def load_results_cache (parseRMap : String → Option RMap)
    (file : Option String) : Except Unit RMap :=
  match file with
  | none => Except.ok []
  | some s =>
    match parseRMap s with
    | some m => Except.ok m
    | none => Except.error ()

/-- One record of the final index. -/
structure IndexEntry where
  file : String
  language : String
  topic : String
  path : String
deriving DecidableEq

/-- One document as seen by the placement loop (`paths/texts/languages/hashes`
row `i`). -/
structure Row where
  path : String
  text : String
  language : String
  hash : Option String
deriving DecidableEq

/-- Mutable state of the placement loop. -/
structure PlaceState where
  seen : List String
  used : List String
  entries : List IndexEntry
  dups : List String
  copies : List (String × String)
deriving DecidableEq

/-- One iteration of the placement loop: skip unreadable rows, skip and log
duplicate hashes, otherwise record the hash, copy the file and append the
index entry. -/
def placeStep (s : PlaceState) (row : Row) (topic : String) : PlaceState :=
  match row.hash with
  | none => s
  | some h =>
    if row.text = "" then s
    else if h ∈ s.seen then { s with dups := s.dups ++ [row.path] }
    else
      let gp := move_pdf row.path row.language topic s.used
      { seen := h :: s.seen
        used := gp.2
        entries := s.entries ++ [⟨basename row.path, row.language, topic, gp.1⟩]
        dups := s.dups
        copies := s.copies ++ [(row.path, gp.1)] }

/-- The whole placement loop, consuming rows and their topic labels in
lockstep (the topic-model contract makes both lists equally long). -/
def placeAll : List Row → List String → PlaceState → PlaceState
  | [], _, s => s
  | row :: rest, [], s => placeAll rest [] (placeStep s row "Unknown")
  | row :: rest, t :: ts, s => placeAll rest ts (placeStep s row t)

/-- The `.pdf` listing filter,
`[f for f in os.listdir(SOURCE_FOLDER) if f.lower().endswith('.pdf')]`. -/
def pdf_listing (files : List PdfFile) : List PdfFile :=
  files.filter (fun f => strEndsWith (strLower f.name) ".pdf")

/-- The cache-miss filter,
`[p for p in pdf_paths if os.path.basename(p) not in results_cache]`. -/
def to_process_of (cache : RMap) (files : List PdfFile) : List PdfFile :=
  (pdf_listing files).filter (fun f => (rmLookup f.name cache).isNone)

/-- The cache entry written for a processed file. -/
def entry_of (langOf hashOf : String → String) (samplePages : Nat) (f : PdfFile) :
    CEntry :=
  let r := process_pdf langOf hashOf samplePages f
  ⟨r.2.1, r.2.2.1, r.2.2.2⟩

/-- The results cache after the per-file update loop
(`results_cache[basename(path)] = {...}` over `to_process`). -/
def updated_cache (langOf hashOf : String → String) (samplePages : Nat)
    (cache : RMap) (toProcess : List PdfFile) : RMap :=
  toProcess.foldl
    (fun m f => rmInsert f.name (entry_of langOf hashOf samplePages f) m) cache

/-- Paths written to the unreadable stream by `process_pdf` during the run. -/
def unreadable_log (langOf hashOf : String → String) (samplePages : Nat)
    (toProcess : List PdfFile) : List String :=
  toProcess.filterMap (fun f =>
    let r := process_pdf langOf hashOf samplePages f
    if r.2.1 = "" then some r.1 else none)

/-- The per-file rows `(p, r["text"], r["language"], r["hash"])` rebuilt from
the updated cache for every listed file. -/
def rows_of (cache1 : RMap) (files : List PdfFile) : List Row :=
  (pdf_listing files).map (fun f =>
    let e := (rmLookup f.name cache1).getD ⟨"", "unknown", none⟩
    ⟨srcPath f.name, e.text, e.language, e.hash⟩)

/-- Observable outcome of one run: which files were fed to the extractor,
what was logged, and which artifacts were persisted.  An `Option` field is
`none` when the run died before writing that artifact. -/
structure RunResult where
  processed : List String
  unreadable : List String
  savedResultsCache : Option RMap
  topicCalls : List (List String)
  indexEntries : Option (List IndexEntry)
  savedHashes : Option (List String)
  duplicateLog : List String
  copies : List (String × String)
  usedPaths : List String
  completed : Bool
deriving DecidableEq

/-- Models `main()`.  A failing cache load propagates as `Except.error`; the
`zip(*[...])` unpacking of an empty row list and a failing topic-model call
abort the run after the results cache was saved (recorded as a `RunResult`
with `completed := false` and no index or hash cache persisted). -/
def main (langOf hashOf : String → String) (samplePages : Nat)
    (topicOracle : List String → Except Unit (List String))
    (parseStrList : String → Option (List String)) (hashFile : Option String)
    (parseRMap : String → Option RMap) (resultsFile : Option String)
    (files : List PdfFile) : Except Unit RunResult :=
  match load_hash_cache parseStrList hashFile with
  | Except.error e => Except.error e
  | Except.ok seen0 =>
    match load_results_cache parseRMap resultsFile with
    | Except.error e => Except.error e
    | Except.ok cache0 =>
      let toProcess := to_process_of cache0 files
      let cache1 := updated_cache langOf hashOf samplePages cache0 toProcess
      let processed := toProcess.map (fun f => srcPath f.name)
      let unreadable := unreadable_log langOf hashOf samplePages toProcess
      let rows := rows_of cache1 files
      match rows with
      | [] =>
        Except.ok ⟨processed, unreadable, some cache1, [], none, none, [], [], [], false⟩
      | r0 :: rest =>
        let texts := (r0 :: rest).map Row.text
        match topicOracle texts with
        | Except.error _ =>
          Except.ok ⟨processed, unreadable, some cache1, [texts], none, none, [], [], [], false⟩
        | Except.ok topicNames =>
          let fin := placeAll (r0 :: rest) topicNames ⟨seen0, [], [], [], []⟩
          Except.ok ⟨processed, unreadable, some cache1, [texts], some fin.entries,
            some fin.seen, fin.dups, fin.copies, fin.used, true⟩

/-- The results cache after the update loop of a run that loaded `cache0`. -/
def run_cache (langOf hashOf : String → String) (samplePages : Nat)
    (cache0 : RMap) (files : List PdfFile) : RMap :=
  updated_cache langOf hashOf samplePages cache0 (to_process_of cache0 files)

/-- The placement rows of a run that loaded `cache0`. -/
def run_rows (langOf hashOf : String → String) (samplePages : Nat)
    (cache0 : RMap) (files : List PdfFile) : List Row :=
  rows_of (run_cache langOf hashOf samplePages cache0 files) files

/-! Concrete service instantiations used to evaluate the model on explicit
inputs (a trivial language detector, the identity as a stand-in content hash,
a constant-topic model, a failing topic model, and stub JSON parsers). -/

def wLang : String → String := fun _ => "en"

def wHash : String → String := fun t => t

def wTopics : List String → Except Unit (List String) :=
  fun ts => Except.ok (ts.map (fun _ => "TopicA"))

def wTopicsFail : List String → Except Unit (List String) :=
  fun _ => Except.error ()

def wParseNone : String → Option (List String) := fun _ => none

def wParseOld : String → Option (List String) := fun _ => some ["old"]

def wParseMapNone : String → Option RMap := fun _ => none

def wParseMapA : String → Option RMap := fun _ => some [("a.pdf", ⟨"t", "en", some "t"⟩)]

/-- Run outcome for two duplicate-text inputs under the concrete services. -/
def wRunDup : RunResult :=
  ⟨["./pdfs/a.pdf", "./pdfs/b.pdf"], [],
   some [("a.pdf", ⟨"hello", "en", some "hello"⟩),
         ("b.pdf", ⟨"hello", "en", some "hello"⟩)],
   [["hello", "hello"]],
   some [⟨"a.pdf", "en", "TopicA", "./sorted_pdfs/en/TopicA/a.pdf"⟩],
   some ["hello"], ["./pdfs/b.pdf"],
   [("./pdfs/a.pdf", "./sorted_pdfs/en/TopicA/a.pdf")],
   ["./sorted_pdfs/en/TopicA/a.pdf"], true⟩

/-- Run outcome for one input with a previously persisted hash cache. -/
def wRunOld : RunResult :=
  ⟨["./pdfs/a.pdf"], [],
   some [("a.pdf", ⟨"t", "en", some "t"⟩)], [["t"]],
   some [⟨"a.pdf", "en", "TopicA", "./sorted_pdfs/en/TopicA/a.pdf"⟩],
   some ["t", "old"], [],
   [("./pdfs/a.pdf", "./sorted_pdfs/en/TopicA/a.pdf")],
   ["./sorted_pdfs/en/TopicA/a.pdf"], true⟩

/-- Run outcome with one filename already present in the results cache. -/
def wRunCached : RunResult :=
  ⟨["./pdfs/b.pdf"], [],
   some [("a.pdf", ⟨"t", "en", some "t"⟩), ("b.pdf", ⟨"u", "en", some "u"⟩)],
   [["t", "u"]],
   some [⟨"a.pdf", "en", "TopicA", "./sorted_pdfs/en/TopicA/a.pdf"⟩,
         ⟨"b.pdf", "en", "TopicA", "./sorted_pdfs/en/TopicA/b.pdf"⟩],
   some ["u", "t"], [],
   [("./pdfs/a.pdf", "./sorted_pdfs/en/TopicA/a.pdf"),
    ("./pdfs/b.pdf", "./sorted_pdfs/en/TopicA/b.pdf")],
   ["./sorted_pdfs/en/TopicA/b.pdf", "./sorted_pdfs/en/TopicA/a.pdf"], true⟩

/-- Run outcome with one unreadable input (no extractable text). -/
def wRunUnreadable : RunResult :=
  ⟨["./pdfs/a.pdf", "./pdfs/b.pdf"], ["./pdfs/a.pdf"],
   some [("a.pdf", ⟨"", "unknown", none⟩), ("b.pdf", ⟨"t", "en", some "t"⟩)],
   [["", "t"]],
   some [⟨"b.pdf", "en", "TopicA", "./sorted_pdfs/en/TopicA/b.pdf"⟩],
   some ["t"], [], [("./pdfs/b.pdf", "./sorted_pdfs/en/TopicA/b.pdf")],
   ["./sorted_pdfs/en/TopicA/b.pdf"], true⟩

/-- Run outcome when the topic model fails after extraction. -/
def wRunFail : RunResult :=
  ⟨["./pdfs/a.pdf"], [],
   some [("a.pdf", ⟨"t", "en", some "t"⟩)], [["t"]],
   none, none, [], [], [], false⟩

/-- Run outcome when the topic model fails and one filename was cached. -/
def wRunFail2 : RunResult :=
  ⟨["./pdfs/b.pdf"], [],
   some [("a.pdf", ⟨"t", "en", some "t"⟩), ("b.pdf", ⟨"u", "en", some "u"⟩)],
   [["t", "u"]],
   none, none, [], [], [], false⟩

deriving instance DecidableEq for Except

/-! Facts about the decimal rendering. -/

theorem natStrAux_zero (f : Nat) : natStrAux f 0 = [] := by
  cases f <;> rfl

theorem natStrAux_fuel (n : Nat) : ∀ f f', n ≤ f → n ≤ f' →
    natStrAux f n = natStrAux f' n := by
  induction n using Nat.strong_induction_on with
  | _ n ih =>
    intro f f' hf hf'
    rcases Nat.eq_zero_or_pos n with hn | hn
    · subst hn; rw [natStrAux_zero, natStrAux_zero]
    · obtain ⟨m, rfl⟩ : ∃ m, n = m + 1 := ⟨n - 1, by omega⟩
      obtain ⟨a, rfl⟩ : ∃ a, f = a + 1 := ⟨f - 1, by omega⟩
      obtain ⟨b, rfl⟩ : ∃ b, f' = b + 1 := ⟨f' - 1, by omega⟩
      show natStrAux a ((m + 1) / 10) ++ _ = natStrAux b ((m + 1) / 10) ++ _
      have hlt : (m + 1) / 10 < m + 1 := Nat.div_lt_self (by omega) (by norm_num)
      rw [ih ((m + 1) / 10) hlt a b (by omega) (by omega)]

theorem natRep_pos (n : Nat) (h : 0 < n) :
    natStrAux n n = natStrAux (n / 10) (n / 10) ++ [digitChar (n % 10)] := by
  obtain ⟨m, rfl⟩ : ∃ m, n = m + 1 := ⟨n - 1, by omega⟩
  show natStrAux m ((m + 1) / 10) ++ _ = _
  have hlt : (m + 1) / 10 < m + 1 := Nat.div_lt_self (by omega) (by norm_num)
  rw [natStrAux_fuel ((m + 1) / 10) m ((m + 1) / 10) (by omega) (by omega)]

theorem natRep_ne_nil (n : Nat) (h : 0 < n) : natStrAux n n ≠ [] := by
  rw [natRep_pos n h]; simp

theorem digitChar_inj : ∀ d, d < 10 → ∀ e, e < 10 → digitChar d = digitChar e → d = e := by
  decide

theorem natRep_inj : ∀ a b : Nat, natStrAux a a = natStrAux b b → a = b := by
  intro a
  induction a using Nat.strong_induction_on with
  | _ a ih =>
    intro b hab
    rcases Nat.eq_zero_or_pos a with ha | ha
    · subst ha
      by_contra hb
      exact natRep_ne_nil b (by omega) (by simpa using hab.symm)
    · rcases Nat.eq_zero_or_pos b with hb | hb
      · subst hb
        exact absurd (by simpa using hab) (natRep_ne_nil a ha)
      · rw [natRep_pos a ha, natRep_pos b hb] at hab
        obtain ⟨h1, h2⟩ := List.append_inj' hab (by simp)
        have hd : a % 10 = b % 10 := by
          have hda : a % 10 < 10 := Nat.mod_lt _ (by norm_num)
          have hdb : b % 10 < 10 := Nat.mod_lt _ (by norm_num)
          exact digitChar_inj _ hda _ hdb (by simpa using h2)
        have hq : a / 10 = b / 10 :=
          ih (a / 10) (Nat.div_lt_self ha (by norm_num)) (b / 10) h1
        omega

theorem natStr_injective : Function.Injective natStr := by
  intro a b h
  exact natRep_inj a b (congrArg String.data h)

theorem natStr_length_pos (n : Nat) (h : 0 < n) : 0 < (natStr n).length := by
  show 0 < (natStrAux n n).length
  rw [natRep_pos n h]
  simp

/-! The split invariant of `os.path.splitext`: the two halves rebuild the
original file name. -/

theorem splitext_append (p : String) : (splitext p).1 ++ (splitext p).2 = p := by
  unfold splitext
  cases h : lastIdxOf '.' p.data with
  | none =>
    simp only [h]
    apply String.ext
    simp [String.data_append]
  | some di =>
    simp only [h]
    split
    · split
      · apply String.ext
        simp [String.data_append]
      · apply String.ext
        simp [String.data_append]
    · apply String.ext
      simp [String.data_append]

/-! Facts about the collision resolver. -/

theorem candidate_inj (dest base ext fileName : String)
    (hbe : base ++ ext = fileName) :
    Function.Injective (candidate dest base ext fileName) := by
  have hsep : ("/" : String).length = 1 := rfl
  have hund : ("_" : String).length = 1 := rfl
  have hlen0 : (candidate dest base ext fileName 0).length =
      dest.length + 1 + (base.length + ext.length) := by
    show ((dest ++ "/") ++ fileName).length = _
    rw [← hbe]
    simp only [String.length_append, hsep]
    try omega
  have hlenS : ∀ n, (candidate dest base ext fileName (n + 1)).length =
      dest.length + 1 + (base.length + 1 + (natStr (n + 1)).length + ext.length) := by
    intro n
    show ((dest ++ "/") ++ (base ++ "_" ++ natStr (n + 1) ++ ext)).length = _
    simp only [String.length_append, hsep, hund]
    try omega
  intro i j h
  match i, j with
  | 0, 0 => rfl
  | 0, j + 1 =>
    exfalso
    have := congrArg String.length h
    rw [hlen0, hlenS j] at this
    have := natStr_length_pos (j + 1) (by omega)
    omega
  | i + 1, 0 =>
    exfalso
    have := congrArg String.length h
    rw [hlen0, hlenS i] at this
    have := natStr_length_pos (i + 1) (by omega)
    omega
  | i + 1, j + 1 =>
    have hd : ((dest ++ "/").data ++ (base ++ "_").data) ++
        ((natStr (i + 1)).data ++ ext.data) =
        ((dest ++ "/").data ++ (base ++ "_").data) ++
        ((natStr (j + 1)).data ++ ext.data) := by
      have := congrArg String.data h
      simp only [candidate, pathJoin, String.data_append] at this
      simp only [String.data_append, List.append_assoc] at this ⊢
      exact this
    have hd2 := List.append_cancel_left hd
    have hd3 := (List.append_inj' hd2 rfl).1
    have : natStr (i + 1) = natStr (j + 1) := String.ext hd3
    have := natStr_injective this
    omega

theorem get_unique_pathAux_spec (dest base ext fileName : String)
    (used : List String) :
    ∀ fuel n, (∃ k, k ≤ fuel ∧ candidate dest base ext fileName (n + k) ∉ used) →
      ∃ k, k ≤ fuel ∧ (∀ m < k, candidate dest base ext fileName (n + m) ∈ used) ∧
        candidate dest base ext fileName (n + k) ∉ used ∧
        get_unique_pathAux dest base ext fileName used fuel n =
          candidate dest base ext fileName (n + k) := by
  intro fuel
  induction fuel with
  | zero =>
    intro n ⟨k, hk, hmem⟩
    interval_cases k
    exact ⟨0, le_refl 0, by omega, hmem, rfl⟩
  | succ fuel ih =>
    intro n ⟨k, hk, hmem⟩
    by_cases h0 : candidate dest base ext fileName n ∈ used
    · have hk0 : k ≠ 0 := by
        intro h
        subst h
        simp only [Nat.add_zero] at hmem
        exact hmem h0
      obtain ⟨k', rfl⟩ : ∃ k', k = k' + 1 := ⟨k - 1, by omega⟩
      have hrec := ih (n + 1) ⟨k', by omega, by
        have : n + 1 + k' = n + (k' + 1) := by omega
        rw [this]; exact hmem⟩
      obtain ⟨k'', hk'', hall, hout, heq⟩ := hrec
      refine ⟨k'' + 1, by omega, ?_, ?_, ?_⟩
      · intro m hm
        match m with
        | 0 => simpa using h0
        | m + 1 =>
          have : n + (m + 1) = n + 1 + m := by omega
          rw [this]
          exact hall m (by omega)
      · have : n + (k'' + 1) = n + 1 + k'' := by omega
        rw [this]; exact hout
      · show (if _ then _ else _) = _
        rw [if_pos h0, heq]
        congr 1
        omega
    · exact ⟨0, by omega, by omega, by simpa using h0, by
        show (if _ then _ else _) = _
        rw [if_neg h0]
        simp⟩

theorem exists_candidate_not_mem (dest base ext fileName : String)
    (hbe : base ++ ext = fileName) (used : List String) :
    ∃ k, k ≤ used.length ∧ candidate dest base ext fileName k ∉ used := by
  by_contra hcon
  push_neg at hcon
  have hnd : ((List.range (used.length + 1)).map
      (candidate dest base ext fileName)).Nodup :=
    (List.nodup_range _).map (candidate_inj dest base ext fileName hbe)
  have hsub : ((List.range (used.length + 1)).map
      (candidate dest base ext fileName)).toFinset ⊆ used.toFinset := by
    intro x hx
    rw [List.mem_toFinset] at hx ⊢
    obtain ⟨k, hk, rfl⟩ := List.mem_map.mp hx
    exact hcon k (by simpa using Nat.lt_succ_iff.mp (List.mem_range.mp hk))
  have hcard := Finset.card_le_card hsub
  rw [List.toFinset_card_of_nodup hnd] at hcard
  have hle := List.toFinset_card_le used
  simp at hcard
  omega

/-- Core property of the collision resolver: the returned path is fresh and is
added to the used-path set. -/
theorem get_unique_path_fresh (dest fileName : String) (used : List String) :
    (get_unique_path dest fileName used).1 ∉ used ∧
    (get_unique_path dest fileName used).2 =
      (get_unique_path dest fileName used).1 :: used := by
  obtain ⟨k, hk, hout⟩ := exists_candidate_not_mem dest (splitext fileName).1
    (splitext fileName).2 fileName (splitext_append fileName) used
  obtain ⟨k', _, _, hout', heq⟩ := get_unique_pathAux_spec dest (splitext fileName).1
    (splitext fileName).2 fileName used (used.length + 1) 0 ⟨k, by omega, by simpa using hout⟩
  constructor
  · show get_unique_pathAux _ _ _ _ _ _ _ ∉ used
    rw [heq]
    simpa using hout'
  · rfl

/-! Dictionary lemmas for the results cache. -/

theorem rmLookup_rmInsert_self (k : String) (v : CEntry) (m : RMap) :
    rmLookup k (rmInsert k v m) = some v := by
  induction m with
  | nil => simp [rmInsert, rmLookup]
  | cons kv rest ih =>
    obtain ⟨k', v'⟩ := kv
    by_cases h : k' = k
    · subst h
      simp [rmInsert, rmLookup]
    · simp [rmInsert, rmLookup, h, ih]

theorem rmLookup_rmInsert_ne (kIns kGet : String) (v : CEntry) (m : RMap)
    (h : kGet ≠ kIns) : rmLookup kGet (rmInsert kIns v m) = rmLookup kGet m := by
  induction m with
  | nil => simp [rmInsert, rmLookup, Ne.symm h]
  | cons kv rest ih =>
    obtain ⟨k', v'⟩ := kv
    by_cases hk : k' = kIns
    · subst hk
      simp [rmInsert, rmLookup, Ne.symm h]
    · simp [rmInsert, rmLookup, hk, ih]

theorem updated_cache_lookup_of_ne (langOf hashOf : String → String)
    (samplePages : Nat) (l : List PdfFile) :
    ∀ (m : RMap) (k : String), (∀ f ∈ l, f.name ≠ k) →
      rmLookup k (updated_cache langOf hashOf samplePages m l) = rmLookup k m := by
  induction l with
  | nil => intro m k _; rfl
  | cons f rest ih =>
    intro m k h
    show rmLookup k (updated_cache langOf hashOf samplePages
      (rmInsert f.name (entry_of langOf hashOf samplePages f) m) rest) = _
    rw [ih _ _ (fun g hg => h g (List.mem_cons_of_mem _ hg))]
    exact rmLookup_rmInsert_ne f.name k _ _
      (fun he => h f (List.mem_cons_self _ _) he.symm)

theorem updated_cache_lookup_self (langOf hashOf : String → String)
    (samplePages : Nat) (l : List PdfFile) :
    ∀ (m : RMap) (f : PdfFile), (l.map PdfFile.name).Nodup → f ∈ l →
      rmLookup f.name (updated_cache langOf hashOf samplePages m l) =
        some (entry_of langOf hashOf samplePages f) := by
  induction l with
  | nil => intro m f _ hf; cases hf
  | cons g rest ih =>
    intro m f hnd hf
    have hnd2 : (∀ x ∈ rest, ¬x.name = g.name) ∧ (rest.map PdfFile.name).Nodup := by
      simpa using hnd
    rcases List.mem_cons.mp hf with rfl | hf'
    · show rmLookup f.name (updated_cache langOf hashOf samplePages
        (rmInsert f.name (entry_of langOf hashOf samplePages f) m) rest) = _
      rw [updated_cache_lookup_of_ne langOf hashOf samplePages rest _ _
        (fun g' hg' he => hnd2.1 g' hg' he)]
      exact rmLookup_rmInsert_self _ _ _
    · exact ih _ f hnd2.2 hf'

/-! Path manipulation lemmas. -/

theorem takeWhile_append_sep (l₁ l₂ : List Char)
    (h : ∀ c ∈ l₁, c ≠ '/') :
    (l₁ ++ '/' :: l₂).takeWhile (· ≠ '/') = l₁ := by
  induction l₁ with
  | nil =>
    show List.takeWhile _ ('/' :: l₂) = []
    rw [List.takeWhile_cons, if_neg]
    simp
  | cons c rest ih =>
    show List.takeWhile _ (c :: (rest ++ '/' :: l₂)) = c :: rest
    rw [List.takeWhile_cons, if_pos (decide_eq_true (h c (List.mem_cons_self _ _))),
      ih (fun x hx => h x (List.mem_cons_of_mem _ hx))]

theorem basename_pathJoin (d nm : String) (h : ('/' : Char) ∉ nm.data) :
    basename (pathJoin d nm) = nm := by
  apply String.ext
  show ((d ++ "/" ++ nm).data.reverse.takeWhile (· ≠ '/')).reverse = nm.data
  have hdata : (d ++ "/" ++ nm).data = d.data ++ ('/' :: nm.data) := by
    simp [String.data_append]
  rw [hdata, List.reverse_append]
  have hrev : ('/' :: nm.data).reverse = nm.data.reverse ++ ['/'] := by simp
  rw [hrev, List.append_assoc]
  show (List.takeWhile _ (nm.data.reverse ++ '/' :: d.data.reverse)).reverse = _
  rw [takeWhile_append_sep _ _
    (fun c hc he => h (he ▸ List.mem_reverse.mp hc))]
  simp

theorem srcPath_inj : Function.Injective srcPath := by
  intro a b hab
  have h2 : SOURCE_FOLDER.data ++ ("/".data ++ a.data) =
      SOURCE_FOLDER.data ++ ("/".data ++ b.data) := by
    have := congrArg String.data hab
    simpa [srcPath, pathJoin, String.data_append, List.append_assoc] using this
  exact String.ext (List.append_cancel_left (List.append_cancel_left h2))

theorem move_pdf_fresh (p lang topic : String) (used : List String) :
    (move_pdf p lang topic used).1 ∉ used ∧
    (move_pdf p lang topic used).2 = (move_pdf p lang topic used).1 :: used :=
  get_unique_path_fresh _ _ _

/-! Placement loop lemmas. -/

theorem placeStep_seen_mono (s : PlaceState) (row : Row) (t : String) :
    s.seen ⊆ (placeStep s row t).seen := by
  unfold placeStep
  cases row.hash with
  | none => exact fun x hx => hx
  | some h =>
    by_cases ht : row.text = ""
    · simp only [if_pos ht]
      exact fun x hx => hx
    · by_cases hs : h ∈ s.seen
      · simp only [if_neg ht, if_pos hs]
        exact fun x hx => hx
      · simp only [if_neg ht, if_neg hs]
        exact fun x hx => List.mem_cons_of_mem _ hx

theorem placeStep_of_seen (s : PlaceState) (row : Row) (t h : String)
    (hh : row.hash = some h) (hs : h ∈ s.seen) :
    (placeStep s row t).entries = s.entries ∧
    (placeStep s row t).copies = s.copies ∧
    (placeStep s row t).seen = s.seen ∧
    (placeStep s row t).used = s.used := by
  unfold placeStep
  rw [hh]
  by_cases ht : row.text = ""
  · simp [ht]
  · simp [ht, hs]

theorem placeStep_path_inv (s : PlaceState) (row : Row) (t : String)
    (h1 : ((s.entries.map IndexEntry.path)).Nodup)
    (h2 : ∀ e ∈ s.entries, e.path ∈ s.used) :
    (((placeStep s row t).entries.map IndexEntry.path)).Nodup ∧
    ∀ e ∈ (placeStep s row t).entries, e.path ∈ (placeStep s row t).used := by
  unfold placeStep
  cases row.hash with
  | none => exact ⟨h1, h2⟩
  | some h =>
    by_cases ht : row.text = ""
    · simp only [if_pos ht]
      exact ⟨h1, h2⟩
    · by_cases hs : h ∈ s.seen
      · simp only [if_neg ht, if_pos hs]
        exact ⟨h1, h2⟩
      · simp only [if_neg ht, if_neg hs]
        obtain ⟨hfresh, hcons⟩ := move_pdf_fresh row.path row.language t s.used
        refine ⟨?_, ?_⟩
        · rw [List.map_append]
          apply List.Nodup.append h1 (List.nodup_singleton _)
          intro x hx hx'
          have hx2 : x = (move_pdf row.path row.language t s.used).1 := by
            simpa using hx'
          obtain ⟨e, he, rfl⟩ := List.mem_map.mp hx
          exact hfresh (hx2 ▸ h2 e he)
        · intro e he
          rw [hcons]
          rcases List.mem_append.mp he with he' | he'
          · exact List.mem_cons_of_mem _ (h2 e he')
          · have he2 : e.path = (move_pdf row.path row.language t s.used).1 := by
              have he3 : e = ⟨basename row.path, row.language, t,
                  (move_pdf row.path row.language t s.used).1⟩ := by simpa using he'
              rw [he3]
            rw [he2]
            exact List.mem_cons_self _ _

theorem placeAll_seen_mono : ∀ (rows : List Row) (ts : List String) (s : PlaceState),
    s.seen ⊆ (placeAll rows ts s).seen := by
  intro rows
  induction rows with
  | nil => intro ts s; exact fun x hx => hx
  | cons row rest ih =>
    intro ts s
    cases ts with
    | nil => exact (placeStep_seen_mono s row "Unknown").trans (ih [] _)
    | cons t ts' => exact (placeStep_seen_mono s row t).trans (ih ts' _)

theorem placeAll_path_inv : ∀ (rows : List Row) (ts : List String) (s : PlaceState),
    ((s.entries.map IndexEntry.path)).Nodup →
    (∀ e ∈ s.entries, e.path ∈ s.used) →
    (((placeAll rows ts s).entries.map IndexEntry.path)).Nodup := by
  intro rows
  induction rows with
  | nil => intro ts s h1 _; exact h1
  | cons row rest ih =>
    intro ts s h1 h2
    cases ts with
    | nil =>
      obtain ⟨h1', h2'⟩ := placeStep_path_inv s row "Unknown" h1 h2
      exact ih [] _ h1' h2'
    | cons t ts' =>
      obtain ⟨h1', h2'⟩ := placeStep_path_inv s row t h1 h2
      exact ih ts' _ h1' h2'

theorem placeStep_entries_from (s : PlaceState) (row : Row) (t : String) :
    ∀ e ∈ (placeStep s row t).entries, e ∈ s.entries ∨
      (row.text ≠ "" ∧ row.hash ≠ none ∧ e.file = basename row.path) := by
  unfold placeStep
  cases hh : row.hash with
  | none => exact fun e he => Or.inl he
  | some h =>
    by_cases ht : row.text = ""
    · simp only [if_pos ht]
      exact fun e he => Or.inl he
    · by_cases hs : h ∈ s.seen
      · simp only [if_neg ht, if_pos hs]
        exact fun e he => Or.inl he
      · simp only [if_neg ht, if_neg hs]
        intro e he
        rcases List.mem_append.mp he with he' | he'
        · exact Or.inl he'
        · refine Or.inr ⟨ht, by simp [hh], ?_⟩
          have : e = ⟨basename row.path, row.language, t,
            (move_pdf row.path row.language t s.used).1⟩ := by simpa using he'
          rw [this]

theorem placeStep_copies_from (s : PlaceState) (row : Row) (t : String) :
    ∀ c ∈ (placeStep s row t).copies, c ∈ s.copies ∨
      (row.text ≠ "" ∧ row.hash ≠ none ∧ c.1 = row.path) := by
  unfold placeStep
  cases hh : row.hash with
  | none => exact fun c hc => Or.inl hc
  | some h =>
    by_cases ht : row.text = ""
    · simp only [if_pos ht]
      exact fun c hc => Or.inl hc
    · by_cases hs : h ∈ s.seen
      · simp only [if_neg ht, if_pos hs]
        exact fun c hc => Or.inl hc
      · simp only [if_neg ht, if_neg hs]
        intro c hc
        rcases List.mem_append.mp hc with hc' | hc'
        · exact Or.inl hc'
        · refine Or.inr ⟨ht, by simp [hh], ?_⟩
          have : c = (row.path, (move_pdf row.path row.language t s.used).1) := by
            simpa using hc'
          rw [this]

theorem placeAll_entries_from : ∀ (rows : List Row) (ts : List String) (s : PlaceState),
    ∀ e ∈ (placeAll rows ts s).entries, e ∈ s.entries ∨
      ∃ row ∈ rows, row.text ≠ "" ∧ row.hash ≠ none ∧ e.file = basename row.path := by
  intro rows
  induction rows with
  | nil => intro ts s e he; exact Or.inl he
  | cons row rest ih =>
    intro ts s e he
    have hstep : ∀ (t : String) (s' : PlaceState), e ∈ (placeAll rest
        (ts.tail) s').entries → s' = placeStep s row (ts.headD "Unknown") →
        e ∈ s.entries ∨ ∃ r ∈ row :: rest, r.text ≠ "" ∧ r.hash ≠ none ∧
          e.file = basename r.path := by
      intro t s' he' hs'
      subst hs'
      rcases ih ts.tail _ e he' with hin | ⟨r, hr, hprop⟩
      · rcases placeStep_entries_from s row (ts.headD "Unknown") e hin with h' | h'
        · exact Or.inl h'
        · exact Or.inr ⟨row, List.mem_cons_self _ _, h'⟩
      · exact Or.inr ⟨r, List.mem_cons_of_mem _ hr, hprop⟩
    cases ts with
    | nil => exact hstep "Unknown" _ he rfl
    | cons t ts' => exact hstep t _ he rfl

theorem placeAll_copies_from : ∀ (rows : List Row) (ts : List String) (s : PlaceState),
    ∀ c ∈ (placeAll rows ts s).copies, c ∈ s.copies ∨
      ∃ row ∈ rows, row.text ≠ "" ∧ row.hash ≠ none ∧ c.1 = row.path := by
  intro rows
  induction rows with
  | nil => intro ts s c hc; exact Or.inl hc
  | cons row rest ih =>
    intro ts s c hc
    have hstep : ∀ (s' : PlaceState), c ∈ (placeAll rest (ts.tail) s').copies →
        s' = placeStep s row (ts.headD "Unknown") →
        c ∈ s.copies ∨ ∃ r ∈ row :: rest, r.text ≠ "" ∧ r.hash ≠ none ∧
          c.1 = r.path := by
      intro s' hc' hs'
      subst hs'
      rcases ih ts.tail _ c hc' with hin | ⟨r, hr, hprop⟩
      · rcases placeStep_copies_from s row (ts.headD "Unknown") c hin with h' | h'
        · exact Or.inl h'
        · exact Or.inr ⟨row, List.mem_cons_self _ _, h'⟩
      · exact Or.inr ⟨r, List.mem_cons_of_mem _ hr, hprop⟩
    cases ts with
    | nil => exact hstep _ hc rfl
    | cons t ts' => exact hstep _ hc rfl

/-! Row construction and listing lemmas. -/

theorem rows_of_mem (cache1 : RMap) (files : List PdfFile) (row : Row)
    (h : row ∈ rows_of cache1 files) :
    ∃ f ∈ pdf_listing files,
      row = ⟨srcPath f.name,
        ((rmLookup f.name cache1).getD ⟨"", "unknown", none⟩).text,
        ((rmLookup f.name cache1).getD ⟨"", "unknown", none⟩).language,
        ((rmLookup f.name cache1).getD ⟨"", "unknown", none⟩).hash⟩ := by
  unfold rows_of at h
  obtain ⟨f, hf, heq⟩ := List.mem_map.mp h
  exact ⟨f, hf, heq.symm⟩

theorem filter_map_name (files : List PdfFile) (p : String → Bool)
    (q : String → String) :
    ((files.filter (fun f => p f.name)).map (fun f => q f.name)) =
      ((files.map PdfFile.name).filter p).map q := by
  induction files with
  | nil => rfl
  | cons f rest ih =>
    by_cases hp : p f.name
    · simp [List.filter_cons, hp, ih]
    · simp [List.filter_cons, hp, ih]

theorem to_process_names (cache : RMap) (files : List PdfFile) :
    (to_process_of cache files).map (fun f => srcPath f.name) =
      ((files.map PdfFile.name).filter (fun nm =>
        (rmLookup nm cache).isNone && strEndsWith (strLower nm) ".pdf")).map srcPath := by
  unfold to_process_of pdf_listing
  rw [List.filter_filter]
  exact filter_map_name files
    (fun nm => (rmLookup nm cache).isNone && strEndsWith (strLower nm) ".pdf") srcPath

/-! Extractor lemmas. -/

theorem segments_mem_iff (total i : Nat) :
    i ∈ segments total ↔ i < total ∧ (i = 0 ∨ i = total / 2 ∨ i = total - 1) := by
  unfold segments
  rw [List.mem_dedup, List.mem_filter]
  simp only [List.mem_cons, List.mem_singleton, List.not_mem_nil, or_false,
    decide_eq_true_eq]
  tauto

theorem foldl_sample_congr (pages pages' : List String) :
    ∀ (idxs : List Nat) (acc : String),
      (∀ i ∈ idxs, pages.getD i "" = pages'.getD i "") →
      idxs.foldl (fun acc i =>
        let pt := pages.getD i ""
        if pt = "" then acc else acc ++ pt ++ " ") acc =
      idxs.foldl (fun acc i =>
        let pt := pages'.getD i ""
        if pt = "" then acc else acc ++ pt ++ " ") acc := by
  intro idxs
  induction idxs with
  | nil => intro acc _; rfl
  | cons i rest ih =>
    intro acc hmem
    simp only [List.foldl_cons]
    rw [hmem i (List.mem_cons_self _ _)]
    exact ih _ (fun j hj => hmem j (List.mem_cons_of_mem _ hj))

theorem extract_text_congr (pages pages' : List String) (b b' : Nat)
    (hlen : pages.length = pages'.length)
    (h : ∀ i ∈ segments pages.length, pages.getD i "" = pages'.getD i "") :
    extract_text pages b = extract_text pages' b' := by
  unfold extract_text
  rw [← hlen]
  exact congrArg strTrim (foldl_sample_congr pages pages' _ "" h)

/-! Second-candidate lemma for the collision scenario. -/

theorem get_unique_pathAux_two (dest base ext fileName : String)
    (used : List String) (fuel : Nat)
    (h0 : candidate dest base ext fileName 0 ∈ used)
    (h1 : candidate dest base ext fileName 1 ∉ used) :
    get_unique_pathAux dest base ext fileName used (fuel + 2) 0 =
      candidate dest base ext fileName 1 := by
  show (if candidate dest base ext fileName 0 ∈ used then
      get_unique_pathAux dest base ext fileName used (fuel + 1) 1
    else candidate dest base ext fileName 0) = _
  rw [if_pos h0]
  show (if candidate dest base ext fileName 1 ∈ used then
      get_unique_pathAux dest base ext fileName used fuel 2
    else candidate dest base ext fileName 1) = _
  rw [if_neg h1]

theorem append_underscore_one (b : String) : b ++ "_" ++ "1" = b ++ "_1" := by
  apply String.ext
  simp [String.data_append]

theorem get_unique_path_second (dest fileName : String) (used : List String)
    (hmem : pathJoin dest fileName ∈ used)
    (h1 : candidate dest (splitext fileName).1 (splitext fileName).2 fileName 1 ∉ used) :
    (get_unique_path dest fileName used).1 =
      pathJoin dest ((splitext fileName).1 ++ "_1" ++ (splitext fileName).2) := by
  have hne : used ≠ [] := List.ne_nil_of_mem hmem
  obtain ⟨k, hk⟩ : ∃ k, used.length + 1 = k + 2 := by
    cases used with
    | nil => exact absurd rfl hne
    | cons a l => exact ⟨l.length, by simp⟩
  show get_unique_pathAux dest (splitext fileName).1 (splitext fileName).2
      fileName used (used.length + 1) 0 = _
  rw [hk, get_unique_pathAux_two dest (splitext fileName).1 (splitext fileName).2
    fileName used k hmem h1]
  show pathJoin dest ((splitext fileName).1 ++ "_" ++ natStr 1 ++ (splitext fileName).2) = _
  have hn1 : natStr 1 = "1" := by decide
  rw [hn1, append_underscore_one]

/-! Characterization of `main` on successful returns. -/

theorem main_ok_spec (langOf hashOf : String → String) (sp : Nat)
    (oracle : List String → Except Unit (List String))
    (pl : String → Option (List String)) (hf : Option String)
    (pm : String → Option RMap) (rf : Option String)
    (files : List PdfFile) (r : RunResult)
    (hmain : main langOf hashOf sp oracle pl hf pm rf files = Except.ok r) :
    ∃ seen0 cache0,
      load_hash_cache pl hf = Except.ok seen0 ∧
      load_results_cache pm rf = Except.ok cache0 ∧
      r.processed = (to_process_of cache0 files).map (fun f => srcPath f.name) ∧
      r.unreadable = unreadable_log langOf hashOf sp (to_process_of cache0 files) ∧
      r.savedResultsCache = some (run_cache langOf hashOf sp cache0 files) ∧
      ((run_rows langOf hashOf sp cache0 files = [] ∧
        r.topicCalls = [] ∧ r.indexEntries = none ∧ r.savedHashes = none ∧
        r.copies = [] ∧ r.completed = false) ∨
       (run_rows langOf hashOf sp cache0 files ≠ [] ∧
        r.topicCalls = [(run_rows langOf hashOf sp cache0 files).map Row.text] ∧
        ((oracle ((run_rows langOf hashOf sp cache0 files).map Row.text) =
            Except.error () ∧
          r.indexEntries = none ∧ r.savedHashes = none ∧
          r.copies = [] ∧ r.completed = false) ∨
         (∃ topicNames,
          oracle ((run_rows langOf hashOf sp cache0 files).map Row.text) =
            Except.ok topicNames ∧
          r.indexEntries = some (placeAll (run_rows langOf hashOf sp cache0 files)
            topicNames ⟨seen0, [], [], [], []⟩).entries ∧
          r.savedHashes = some (placeAll (run_rows langOf hashOf sp cache0 files)
            topicNames ⟨seen0, [], [], [], []⟩).seen ∧
          r.copies = (placeAll (run_rows langOf hashOf sp cache0 files)
            topicNames ⟨seen0, [], [], [], []⟩).copies ∧
          r.completed = true)))) := by
  unfold main at hmain
  cases hL : load_hash_cache pl hf with
  | error e =>
    simp only [hL] at hmain
    exact Except.noConfusion hmain
  | ok seen0 =>
    simp only [hL] at hmain
    cases hR : load_results_cache pm rf with
    | error e =>
      simp only [hR] at hmain
      exact Except.noConfusion hmain
    | ok cache0 =>
      simp only [hR] at hmain
      refine ⟨seen0, cache0, rfl, rfl, ?_⟩
      have hrc : rows_of (updated_cache langOf hashOf sp cache0
          (to_process_of cache0 files)) files = run_rows langOf hashOf sp cache0 files := rfl
      cases hrows : rows_of (updated_cache langOf hashOf sp cache0
          (to_process_of cache0 files)) files with
      | nil =>
        simp only [hrows] at hmain
        injection hmain with h
        subst h
        exact ⟨rfl, rfl, rfl, Or.inl ⟨hrc ▸ hrows, rfl, rfl, rfl, rfl, rfl⟩⟩
      | cons r0 rest =>
        simp only [hrows] at hmain
        have hrr : run_rows langOf hashOf sp cache0 files = r0 :: rest := hrc ▸ hrows
        cases hO : oracle (List.map Row.text (r0 :: rest)) with
        | error e =>
          simp only [hO] at hmain
          injection hmain with h
          subst h
          cases e
          refine ⟨rfl, rfl, rfl, Or.inr ⟨by rw [hrr]; exact List.cons_ne_nil _ _, ?_, ?_⟩⟩
          · rw [hrr]
          · exact Or.inl ⟨by rw [hrr]; exact hO, rfl, rfl, rfl, rfl⟩
        | ok topicNames =>
          simp only [hO] at hmain
          injection hmain with h
          subst h
          refine ⟨rfl, rfl, rfl, Or.inr ⟨by rw [hrr]; exact List.cons_ne_nil _ _, ?_, ?_⟩⟩
          · rw [hrr]
          · refine Or.inr ⟨topicNames, by rw [hrr]; exact hO, ?_, ?_, ?_, rfl⟩
            · rw [hrr]
            · rw [hrr]
            · rw [hrr]

/-! Claim theorems. -/

/-- C1: a document whose content hash is already in the seen-hash set (loaded
from the persisted cache or added earlier in the run) is never placed (no copy
is recorded) and never appears in the index; the seen-hash set only grows
during a run; and the set persisted at end of run is a superset of the loaded
set. -/
theorem c1_duplicate_suppression :
    (∀ (s : PlaceState) (row : Row) (t h : String), row.hash = some h → h ∈ s.seen →
      (placeStep s row t).entries = s.entries ∧
      (placeStep s row t).copies = s.copies ∧
      (placeStep s row t).seen = s.seen) ∧
    (∀ (s : PlaceState) (row : Row) (t : String), s.seen ⊆ (placeStep s row t).seen) ∧
    (∀ (langOf hashOf : String → String) (sp : Nat)
      (oracle : List String → Except Unit (List String))
      (pl : String → Option (List String)) (hf : Option String)
      (pm : String → Option RMap) (rf : Option String)
      (files : List PdfFile) (r : RunResult) (seen0 hs : List String),
      load_hash_cache pl hf = Except.ok seen0 →
      main langOf hashOf sp oracle pl hf pm rf files = Except.ok r →
      r.savedHashes = some hs → seen0 ⊆ hs) := by
  refine ⟨?_, placeStep_seen_mono, ?_⟩
  · intro s row t h hh hs
    obtain ⟨h1, h2, h3, _⟩ := placeStep_of_seen s row t h hh hs
    exact ⟨h1, h2, h3⟩
  · intro langOf hashOf sp oracle pl hf pm rf files r seen0 hs hL hmain hsv
    obtain ⟨seen0', cache0, hL', _, _, _, _, hbr⟩ :=
      main_ok_spec langOf hashOf sp oracle pl hf pm rf files r hmain
    have hseq : seen0' = seen0 := by
      rw [hL] at hL'
      injection hL' with h
      exact h.symm
    rcases hbr with ⟨_, _, _, hsv', _⟩ | ⟨_, _, hbr2⟩
    · rw [hsv'] at hsv
      cases hsv
    · rcases hbr2 with ⟨_, _, hsv', _⟩ | ⟨tn, _, _, hsv', _⟩
      · rw [hsv'] at hsv
        cases hsv
      · rw [hsv'] at hsv
        injection hsv with h
        subst h
        have hmono := placeAll_seen_mono (run_rows langOf hashOf sp cache0 files) tn
          ⟨seen0', [], [], [], []⟩
        exact hseq ▸ hmono

/-- Witness for C1 at concrete inputs: a row whose hash `"h"` is already seen
changes neither index entries nor copies, and the run that loaded `["old"]`
persists a superset of it. -/
theorem c1_duplicate_suppression_w :
    ((placeStep ⟨["h"], [], [], [], []⟩ ⟨"./pdfs/a.pdf", "txt", "en", some "h"⟩
        "T").entries = [] ∧
     (placeStep ⟨["h"], [], [], [], []⟩ ⟨"./pdfs/a.pdf", "txt", "en", some "h"⟩
        "T").copies = [] ∧
     (placeStep ⟨["h"], [], [], [], []⟩ ⟨"./pdfs/a.pdf", "txt", "en", some "h"⟩
        "T").seen = ["h"]) ∧
    (["old"] : List String) ⊆ ["t", "old"] :=
  ⟨c1_duplicate_suppression.1 ⟨["h"], [], [], [], []⟩
    ⟨"./pdfs/a.pdf", "txt", "en", some "h"⟩ "T" "h" rfl (by decide),
   c1_duplicate_suppression.2.2 wLang wHash 10 wTopics wParseOld (some "x")
    wParseMapNone none [⟨"a.pdf", ["t"]⟩] wRunOld ["old"] ["t", "old"]
    (by decide) (by decide) rfl⟩

/-- C2: the collision resolver returns a destination path outside the used-path
set and adds it to the set; when the plain destination is taken and the first
suffixed candidate is free it returns `base_1.ext`; consequently no two index
entries of one run share a destination path. -/
theorem c2_distinct_paths :
    (∀ (dest fileName : String) (used : List String),
      (get_unique_path dest fileName used).1 ∉ used ∧
      (get_unique_path dest fileName used).2 =
        (get_unique_path dest fileName used).1 :: used) ∧
    (∀ (dest fileName : String) (used : List String),
      pathJoin dest fileName ∈ used →
      candidate dest (splitext fileName).1 (splitext fileName).2 fileName 1 ∉ used →
      (get_unique_path dest fileName used).1 =
        pathJoin dest ((splitext fileName).1 ++ "_1" ++ (splitext fileName).2)) ∧
    (∀ (langOf hashOf : String → String) (sp : Nat)
      (oracle : List String → Except Unit (List String))
      (pl : String → Option (List String)) (hf : Option String)
      (pm : String → Option RMap) (rf : Option String)
      (files : List PdfFile) (r : RunResult) (es : List IndexEntry),
      main langOf hashOf sp oracle pl hf pm rf files = Except.ok r →
      r.indexEntries = some es → (es.map IndexEntry.path).Nodup) := by
  refine ⟨fun dest fileName used => get_unique_path_fresh dest fileName used,
    fun dest fileName used => get_unique_path_second dest fileName used, ?_⟩
  intro langOf hashOf sp oracle pl hf pm rf files r es hmain hes
  obtain ⟨seen0, cache0, _, _, _, _, _, hbr⟩ :=
    main_ok_spec langOf hashOf sp oracle pl hf pm rf files r hmain
  rcases hbr with ⟨_, _, hie, _⟩ | ⟨_, _, hbr2⟩
  · rw [hie] at hes
    cases hes
  · rcases hbr2 with ⟨_, hie, _⟩ | ⟨tn, _, hie, _⟩
    · rw [hie] at hes
      cases hes
    · rw [hie] at hes
      injection hes with h
      subst h
      exact placeAll_path_inv _ _ _ (by simp) (by simp)

/-- Witness for C2 at concrete inputs: with `d/name.pdf` taken, the resolver
returns the fresh path `d/name_1.pdf`, and the duplicate-text run produces an
index with pairwise distinct paths. -/
theorem c2_distinct_paths_w :
    (get_unique_path "d" "name.pdf" ["d/name.pdf"]).1 ∉ ["d/name.pdf"] ∧
    (get_unique_path "d" "name.pdf" ["d/name.pdf"]).1 =
      pathJoin "d" ((splitext "name.pdf").1 ++ "_1" ++ (splitext "name.pdf").2) ∧
    (([⟨"a.pdf", "en", "TopicA", "./sorted_pdfs/en/TopicA/a.pdf"⟩] :
      List IndexEntry).map IndexEntry.path).Nodup :=
  ⟨(c2_distinct_paths.1 "d" "name.pdf" ["d/name.pdf"]).1,
   c2_distinct_paths.2.1 "d" "name.pdf" ["d/name.pdf"] (by decide) (by decide),
   c2_distinct_paths.2.2 wLang wHash 10 wTopics wParseNone none wParseMapNone none
    [⟨"a.pdf", ["hello"]⟩, ⟨"b.pdf", ["hello"]⟩] wRunDup
    [⟨"a.pdf", "en", "TopicA", "./sorted_pdfs/en/TopicA/a.pdf"⟩]
    (by decide) rfl⟩

/-- C9: for every finite used-path set, destination folder and filename the
collision resolver terminates: the successive candidate paths are pairwise
distinct, so some candidate lies outside the used set, and the loop returns
the first such candidate. -/
theorem c9_resolver_termination (dest fileName : String) (used : List String) :
    (∀ i j : Nat, i ≠ j →
      candidate dest (splitext fileName).1 (splitext fileName).2 fileName i ≠
        candidate dest (splitext fileName).1 (splitext fileName).2 fileName j) ∧
    ∃ n, candidate dest (splitext fileName).1 (splitext fileName).2 fileName n ∉ used ∧
      (∀ m < n,
        candidate dest (splitext fileName).1 (splitext fileName).2 fileName m ∈ used) ∧
      (get_unique_path dest fileName used).1 =
        candidate dest (splitext fileName).1 (splitext fileName).2 fileName n := by
  constructor
  · intro i j hij heq
    exact hij (candidate_inj dest _ _ fileName (splitext_append fileName) heq)
  · obtain ⟨k, hk, hout⟩ := exists_candidate_not_mem dest (splitext fileName).1
      (splitext fileName).2 fileName (splitext_append fileName) used
    obtain ⟨k', _, hall, hout', heq⟩ := get_unique_pathAux_spec dest (splitext fileName).1
      (splitext fileName).2 fileName used (used.length + 1) 0 ⟨k, by omega, by simpa using hout⟩
    refine ⟨k', by simpa using hout', fun m hm => by simpa using hall m hm, ?_⟩
    show get_unique_pathAux dest (splitext fileName).1 (splitext fileName).2
      fileName used (used.length + 1) 0 = _
    rw [heq]
    congr 1
    omega

/-- Witness for C9 at a concrete input: the first two candidates differ, and
the loop over the used set containing only `d/f.pdf` stops at a fresh
candidate. -/
theorem c9_resolver_termination_w :
    (candidate "d" (splitext "f.pdf").1 (splitext "f.pdf").2 "f.pdf" 0 ≠
      candidate "d" (splitext "f.pdf").1 (splitext "f.pdf").2 "f.pdf" 1) ∧
    ∃ n, candidate "d" (splitext "f.pdf").1 (splitext "f.pdf").2 "f.pdf" n ∉
        ["d/f.pdf"] ∧
      (∀ m < n, candidate "d" (splitext "f.pdf").1 (splitext "f.pdf").2 "f.pdf" m ∈
        ["d/f.pdf"]) ∧
      (get_unique_path "d" "f.pdf" ["d/f.pdf"]).1 =
        candidate "d" (splitext "f.pdf").1 (splitext "f.pdf").2 "f.pdf" n :=
  ⟨(c9_resolver_termination "d" "f.pdf" ["d/f.pdf"]).1 0 1 (by omega),
   (c9_resolver_termination "d" "f.pdf" ["d/f.pdf"]).2⟩

/-- C3: with an empty input folder the pipeline does NOT complete: the
`zip(*[...])` unpacking of the empty row list raises after the results cache
was saved, so no index (not even an empty one) is written. -/
theorem c3_empty_input_crash :
    (main wLang wHash 10 wTopics wParseNone none wParseMapNone none []).map
      RunResult.completed = Except.ok false ∧
    (main wLang wHash 10 wTopics wParseNone none wParseMapNone none []).map
      RunResult.indexEntries = Except.ok none ∧
    (main wLang wHash 10 wTopics wParseNone none wParseMapNone none []).map
      RunResult.savedHashes = Except.ok none ∧
    (main wLang wHash 10 wTopics wParseNone none wParseMapNone none []).map
      RunResult.savedResultsCache = Except.ok (some []) ∧
    (main wLang wHash 10 wTopics wParseNone none wParseMapNone none []).map
      RunResult.unreadable = Except.ok [] := by
  exact ⟨by decide, by decide, by decide, by decide, by decide⟩

/-- Counterexample for C4 at an explicit five-page document with budget 4: the
code samples the first, middle and last pages, not the front/back slices of
`budget/2` pages described by the spec. -/
theorem c4_sampling_cex :
    extract_text ["pa", "pb", "pc", "pd", "pe"] 4 ≠
      extractTextSpec ["pa", "pb", "pc", "pd", "pe"] 4 := by
  decide

/-- C4 as amended: the extractor ignores the max-pages budget entirely and
samples exactly the first page, the middle page (`total / 2`) and the last
page, clipped to the valid range and deduplicated; its output depends only on
the text of those pages. -/
theorem c4_first_middle_last :
    (∀ (pages : List String) (b b' : Nat),
      extract_text pages b = extract_text pages b') ∧
    (∀ total i, i ∈ segments total ↔
      i < total ∧ (i = 0 ∨ i = total / 2 ∨ i = total - 1)) ∧
    (∀ (pages pages' : List String) (b b' : Nat), pages.length = pages'.length →
      (∀ i ∈ segments pages.length, pages.getD i "" = pages'.getD i "") →
      extract_text pages b = extract_text pages' b') :=
  ⟨fun _ _ _ => rfl, segments_mem_iff, extract_text_congr⟩

/-- Witness for C4 at concrete inputs: two five-page documents differing only
on the unsampled pages 1 and 3 extract to the same text even under different
budgets. -/
theorem c4_first_middle_last_w :
    extract_text ["a", "u", "b", "v", "c"] 10 =
      extract_text ["a", "w", "b", "z", "c"] 3 :=
  c4_first_middle_last.2.2 ["a", "u", "b", "v", "c"] ["a", "w", "b", "z", "c"]
    10 3 rfl (by decide)

/-- C5: a missing cache file loads as empty, but a malformed cache file makes
the load raise (`json.load` propagates), contradicting the never-fatal claim. -/
theorem c5_cache_load :
    (∀ parse : String → Option (List String),
      load_hash_cache parse none = Except.ok []) ∧
    (∀ (parse : String → Option (List String)) (s : String), parse s = none →
      load_hash_cache parse (some s) = Except.error ()) ∧
    (∀ parse : String → Option RMap,
      load_results_cache parse none = Except.ok []) ∧
    (∀ (parse : String → Option RMap) (s : String), parse s = none →
      load_results_cache parse (some s) = Except.error ()) := by
  refine ⟨fun _ => rfl, ?_, fun _ => rfl, ?_⟩
  · intro parse s h
    simp only [load_hash_cache, h]
  · intro parse s h
    simp only [load_results_cache, h]

/-- Witness for C5 at a concrete unparseable cache file. -/
theorem c5_cache_load_w :
    load_hash_cache wParseNone (some "not json") = Except.error () ∧
    load_results_cache wParseMapNone (some "not json") = Except.error () :=
  ⟨c5_cache_load.2.1 wParseNone "not json" rfl,
   c5_cache_load.2.2.2 wParseMapNone "not json" rfl⟩

/-- Counterexample for C6 at a concrete run: two inputs with identical text
(hence identical hashes under the concrete hash) are BOTH passed to the single
topic-model call — the sequence passed is not deduplicated. -/
theorem c6_topic_call_cex :
    (main wLang wHash 10 wTopics wParseNone none wParseMapNone none
      [⟨"a.pdf", ["hello"]⟩, ⟨"b.pdf", ["hello"]⟩]).map RunResult.topicCalls =
      Except.ok [["hello", "hello"]] ∧
    ¬ ((["hello", "hello"].map wHash).Nodup) ∧
    (["hello", "hello"] : List String).dedup ≠ ["hello", "hello"] := by
  refine ⟨by decide, by decide, by decide⟩

/-- C6 as amended: the topic model is invoked at most once per run, and — when
there is at least one listed input — exactly once, on the full per-file text
sequence rebuilt from the updated results cache in input order, duplicates and
empty texts included. -/
theorem c6_topic_call (langOf hashOf : String → String) (sp : Nat)
    (oracle : List String → Except Unit (List String))
    (pl : String → Option (List String)) (hf : Option String)
    (pm : String → Option RMap) (rf : Option String)
    (files : List PdfFile) (r : RunResult) (cache0 : RMap)
    (hR : load_results_cache pm rf = Except.ok cache0)
    (hmain : main langOf hashOf sp oracle pl hf pm rf files = Except.ok r) :
    r.topicCalls.length ≤ 1 ∧
    (run_rows langOf hashOf sp cache0 files ≠ [] →
      r.topicCalls = [(run_rows langOf hashOf sp cache0 files).map Row.text]) := by
  obtain ⟨seen0, cache0', _, hR', _, _, _, hbr⟩ :=
    main_ok_spec langOf hashOf sp oracle pl hf pm rf files r hmain
  have hceq : cache0' = cache0 := by
    rw [hR] at hR'
    injection hR' with h
    exact h.symm
  subst hceq
  rcases hbr with ⟨hnil, htc, _⟩ | ⟨_, htc, _⟩
  · rw [htc]
    exact ⟨by simp, fun hc => absurd hnil hc⟩
  · rw [htc]
    exact ⟨by simp, fun _ => rfl⟩

/-- Witness for C6 at the duplicate-text run. -/
theorem c6_topic_call_w :
    wRunDup.topicCalls.length ≤ 1 ∧
    (run_rows wLang wHash 10 [] [⟨"a.pdf", ["hello"]⟩, ⟨"b.pdf", ["hello"]⟩] ≠ [] →
      wRunDup.topicCalls = [(run_rows wLang wHash 10 []
        [⟨"a.pdf", ["hello"]⟩, ⟨"b.pdf", ["hello"]⟩]).map Row.text]) :=
  c6_topic_call wLang wHash 10 wTopics wParseNone none wParseMapNone none
    [⟨"a.pdf", ["hello"]⟩, ⟨"b.pdf", ["hello"]⟩] wRunDup [] rfl (by decide)

/-- C7: a filename present in the loaded results cache is never handed to the
extractor, and the set of extracted files is computed purely from the listing
names and the cache — not from page contents, content hashes or timestamps. -/
theorem c7_cache_skip (langOf hashOf : String → String) (sp : Nat)
    (oracle : List String → Except Unit (List String))
    (pl : String → Option (List String)) (hf : Option String)
    (pm : String → Option RMap) (rf : Option String)
    (files : List PdfFile) (r : RunResult) (cache0 : RMap)
    (hR : load_results_cache pm rf = Except.ok cache0)
    (hmain : main langOf hashOf sp oracle pl hf pm rf files = Except.ok r) :
    r.processed = ((files.map PdfFile.name).filter (fun nm =>
      (rmLookup nm cache0).isNone && strEndsWith (strLower nm) ".pdf")).map srcPath ∧
    (∀ f ∈ pdf_listing files, (rmLookup f.name cache0).isSome →
      srcPath f.name ∉ r.processed) := by
  obtain ⟨seen0, cache0', _, hR', hproc, _⟩ :=
    main_ok_spec langOf hashOf sp oracle pl hf pm rf files r hmain
  have hceq : cache0' = cache0 := by
    rw [hR] at hR'
    injection hR' with h
    exact h.symm
  rw [hceq] at hproc
  have hchar : r.processed = ((files.map PdfFile.name).filter (fun nm =>
      (rmLookup nm cache0).isNone && strEndsWith (strLower nm) ".pdf")).map srcPath := by
    rw [hproc]
    exact to_process_names cache0 files
  refine ⟨hchar, ?_⟩
  intro f hfm hsome hmem
  rw [hchar] at hmem
  obtain ⟨nm, hnm, heq⟩ := List.mem_map.mp hmem
  have hnmf : nm = f.name := srcPath_inj heq
  subst hnmf
  have hpred := (List.mem_filter.mp hnm).2
  have hnone : (rmLookup f.name cache0).isNone = true := by
    cases hb : (rmLookup f.name cache0).isNone
    · rw [hb] at hpred
      simp at hpred
    · rfl
  rw [Option.isNone_iff_eq_none] at hnone
  rw [hnone] at hsome
  simp at hsome

/-- Witness for C7 at a concrete run whose cache already holds `a.pdf`: only
`b.pdf` is extracted. -/
theorem c7_cache_skip_w :
    wRunCached.processed = ((([⟨"a.pdf", ["t"]⟩, ⟨"b.pdf", ["u"]⟩] :
        List PdfFile).map PdfFile.name).filter (fun nm =>
      (rmLookup nm [("a.pdf", ⟨"t", "en", some "t"⟩)]).isNone &&
        strEndsWith (strLower nm) ".pdf")).map srcPath ∧
    (∀ f ∈ pdf_listing [⟨"a.pdf", ["t"]⟩, ⟨"b.pdf", ["u"]⟩],
      (rmLookup f.name [("a.pdf", ⟨"t", "en", some "t"⟩)]).isSome →
      srcPath f.name ∉ wRunCached.processed) :=
  c7_cache_skip wLang wHash 10 wTopics wParseNone none wParseMapA (some "c")
    [⟨"a.pdf", ["t"]⟩, ⟨"b.pdf", ["u"]⟩] wRunCached
    [("a.pdf", ⟨"t", "en", some "t"⟩)] rfl (by decide)

/-- C10: the results cache is persisted before the topic-model call: when the
bulk topic stage fails, the updated cache (new entries for every processed
file, previously cached filenames untouched) was already saved, while no index
is written and the hash cache is not persisted. -/
theorem c10_results_before_topics (langOf hashOf : String → String) (sp : Nat)
    (oracle : List String → Except Unit (List String))
    (pl : String → Option (List String)) (hf : Option String)
    (pm : String → Option RMap) (rf : Option String)
    (files : List PdfFile) (r : RunResult) (cache0 : RMap)
    (hR : load_results_cache pm rf = Except.ok cache0)
    (hmain : main langOf hashOf sp oracle pl hf pm rf files = Except.ok r)
    (hfailed : oracle ((run_rows langOf hashOf sp cache0 files).map Row.text) =
      Except.error ())
    (hne : run_rows langOf hashOf sp cache0 files ≠ []) :
    r.savedResultsCache = some (run_cache langOf hashOf sp cache0 files) ∧
    r.indexEntries = none ∧ r.savedHashes = none ∧ r.completed = false ∧
    (∀ nm, (rmLookup nm cache0).isSome →
      rmLookup nm (run_cache langOf hashOf sp cache0 files) = rmLookup nm cache0) ∧
    (((to_process_of cache0 files).map PdfFile.name).Nodup →
      ∀ f ∈ to_process_of cache0 files,
        rmLookup f.name (run_cache langOf hashOf sp cache0 files) =
          some (entry_of langOf hashOf sp f)) := by
  obtain ⟨seen0, cache0', _, hR', _, _, hsrc, hbr⟩ :=
    main_ok_spec langOf hashOf sp oracle pl hf pm rf files r hmain
  have hceq : cache0' = cache0 := by
    rw [hR] at hR'
    injection hR' with h
    exact h.symm
  rw [hceq] at hsrc hbr
  have hlkof : ∀ nm, (rmLookup nm cache0).isSome →
      rmLookup nm (run_cache langOf hashOf sp cache0 files) = rmLookup nm cache0 := by
    intro nm hsome
    unfold run_cache
    apply updated_cache_lookup_of_ne
    intro f hfm heq
    have hpred := (List.mem_filter.mp hfm).2
    rw [heq] at hpred
    rw [Option.isNone_iff_eq_none] at hpred
    rw [hpred] at hsome
    simp at hsome
  have hlkself : ((to_process_of cache0 files).map PdfFile.name).Nodup →
      ∀ f ∈ to_process_of cache0 files,
        rmLookup f.name (run_cache langOf hashOf sp cache0 files) =
          some (entry_of langOf hashOf sp f) := by
    intro hnd f hfm
    exact updated_cache_lookup_self langOf hashOf sp _ _ f hnd hfm
  rcases hbr with ⟨hnil, _⟩ | ⟨_, _, hbr2⟩
  · exact absurd hnil hne
  · rcases hbr2 with ⟨_, hie, hsh, _, hcomp⟩ | ⟨tn, hok, _⟩
    · exact ⟨hsrc, hie, hsh, hcomp, hlkof, hlkself⟩
    · rw [hok] at hfailed
      exact Except.noConfusion hfailed

/-- Witness for C10 at a concrete run whose topic model fails: the updated
cache was saved, nothing else was, the cached `a.pdf` entry is untouched and
the fresh `b.pdf` entry is present. -/
theorem c10_results_before_topics_w :
    wRunFail2.savedResultsCache = some (run_cache wLang wHash 10
      [("a.pdf", ⟨"t", "en", some "t"⟩)] [⟨"a.pdf", ["t"]⟩, ⟨"b.pdf", ["u"]⟩]) ∧
    wRunFail2.indexEntries = none ∧ wRunFail2.savedHashes = none ∧
    wRunFail2.completed = false ∧
    rmLookup "a.pdf" (run_cache wLang wHash 10 [("a.pdf", ⟨"t", "en", some "t"⟩)]
      [⟨"a.pdf", ["t"]⟩, ⟨"b.pdf", ["u"]⟩]) =
      rmLookup "a.pdf" [("a.pdf", ⟨"t", "en", some "t"⟩)] ∧
    rmLookup (PdfFile.name ⟨"b.pdf", ["u"]⟩) (run_cache wLang wHash 10
      [("a.pdf", ⟨"t", "en", some "t"⟩)] [⟨"a.pdf", ["t"]⟩, ⟨"b.pdf", ["u"]⟩]) =
      some (entry_of wLang wHash 10 ⟨"b.pdf", ["u"]⟩) := by
  have T := c10_results_before_topics wLang wHash 10 wTopicsFail wParseNone none
    wParseMapA (some "c") [⟨"a.pdf", ["t"]⟩, ⟨"b.pdf", ["u"]⟩] wRunFail2
    [("a.pdf", ⟨"t", "en", some "t"⟩)] rfl (by decide) (by decide) (by decide)
  exact ⟨T.1, T.2.1, T.2.2.1, T.2.2.2.1,
    T.2.2.2.2.1 "a.pdf" (by decide),
    T.2.2.2.2.2 (by decide) ⟨"b.pdf", ["u"]⟩ (by decide)⟩

/-- C8: a processed file whose extraction yields no text gets a null content
hash and is written to the unreadable stream, and the placement loop excludes
it: no index entry carries its name and no copy originates from its path. -/
theorem c8_unreadable_excluded (langOf hashOf : String → String) (sp : Nat)
    (oracle : List String → Except Unit (List String))
    (pl : String → Option (List String)) (hf : Option String)
    (pm : String → Option RMap) (rf : Option String)
    (files : List PdfFile) (r : RunResult) (cache0 : RMap) (f : PdfFile)
    (hR : load_results_cache pm rf = Except.ok cache0)
    (hmain : main langOf hashOf sp oracle pl hf pm rf files = Except.ok r)
    (hnd : ((pdf_listing files).map PdfFile.name).Nodup)
    (hsl : ∀ g ∈ files, ('/' : Char) ∉ g.name.data)
    (hfp : f ∈ to_process_of cache0 files)
    (hempty : extract_text f.pages sp = "") :
    process_pdf langOf hashOf sp f = (srcPath f.name, "", "unknown", none) ∧
    srcPath f.name ∈ r.unreadable ∧
    (∀ es, r.indexEntries = some es → ∀ e ∈ es, e.file ≠ f.name) ∧
    (∀ c ∈ r.copies, c.1 ≠ srcPath f.name) := by
  have hproc : process_pdf langOf hashOf sp f = (srcPath f.name, "", "unknown", none) := by
    have hcond : strTrim ("" : String) = "" := rfl
    simp only [process_pdf, hempty]
    rw [if_pos hcond]
  have hent : entry_of langOf hashOf sp f = ⟨"", "unknown", none⟩ := by
    unfold entry_of
    rw [hproc]
  obtain ⟨seen0, cache0', _, hR', _, hunr, _, hbr⟩ :=
    main_ok_spec langOf hashOf sp oracle pl hf pm rf files r hmain
  have hceq : cache0' = cache0 := by
    rw [hR] at hR'
    injection hR' with h
    exact h.symm
  rw [hceq] at hunr hbr
  have hfl : f ∈ pdf_listing files := List.mem_of_mem_filter hfp
  have hndp : ((to_process_of cache0 files).map PdfFile.name).Nodup := by
    have hsub : (to_process_of cache0 files).Sublist (pdf_listing files) :=
      List.filter_sublist _
    exact hnd.sublist (hsub.map PdfFile.name)
  have hlk : rmLookup f.name (run_cache langOf hashOf sp cache0 files) =
      some (entry_of langOf hashOf sp f) :=
    updated_cache_lookup_self langOf hashOf sp _ cache0 f hndp hfp
  have hmem : srcPath f.name ∈ r.unreadable := by
    rw [hunr]
    unfold unreadable_log
    apply List.mem_filterMap.mpr
    refine ⟨f, hfp, ?_⟩
    show (if (process_pdf langOf hashOf sp f).2.1 = "" then
      some (process_pdf langOf hashOf sp f).1 else none) = some (srcPath f.name)
    rw [hproc]
    rfl
  have hrowf : ∀ row ∈ run_rows langOf hashOf sp cache0 files, row.text ≠ "" →
      row.path ≠ srcPath f.name ∧ basename row.path ≠ f.name := by
    intro row hrm htext
    have hrm' : row ∈ rows_of (run_cache langOf hashOf sp cache0 files) files := hrm
    obtain ⟨g, hg, hrow⟩ :=
      rows_of_mem (run_cache langOf hashOf sp cache0 files) files row hrm'
    have hgfile : g ∈ files := List.mem_of_mem_filter hg
    have hbn : basename (srcPath g.name) = g.name :=
      basename_pathJoin SOURCE_FOLDER g.name (hsl g hgfile)
    have hne_gf : g.name ≠ f.name := by
      intro heq
      have hgf : g = f := List.inj_on_of_nodup_map hnd hg hfl heq
      apply htext
      rw [hrow, hgf]
      show ((rmLookup f.name (run_cache langOf hashOf sp cache0 files)).getD
        ⟨"", "unknown", none⟩).text = ""
      rw [hlk, hent]
      rfl
    constructor
    · intro hpeq
      rw [hrow] at hpeq
      exact hne_gf (srcPath_inj hpeq)
    · intro hbeq
      rw [hrow] at hbeq
      show False
      apply hne_gf
      rw [← hbn]
      exact hbeq
  refine ⟨hproc, hmem, ?_, ?_⟩
  · intro es hes e hee heq
    rcases hbr with ⟨_, _, hie, _⟩ | ⟨_, _, hbr2⟩
    · rw [hie] at hes
      cases hes
    · rcases hbr2 with ⟨_, hie, _⟩ | ⟨tn, _, hie, _⟩
      · rw [hie] at hes
        cases hes
      · rw [hie] at hes
        injection hes with h
        subst h
        rcases placeAll_entries_from (run_rows langOf hashOf sp cache0 files) tn
            ⟨seen0, [], [], [], []⟩ e hee with hnil | ⟨row, hrm, htext, _, hfile⟩
        · cases hnil
        · exact (hrowf row hrm htext).2 (hfile ▸ heq)
  · intro c hc heq
    rcases hbr with ⟨_, _, _, _, hcop, _⟩ | ⟨_, _, hbr2⟩
    · rw [hcop] at hc
      cases hc
    · rcases hbr2 with ⟨_, _, _, hcop, _⟩ | ⟨tn, _, _, _, hcop, _⟩
      · rw [hcop] at hc
        cases hc
      · rw [hcop] at hc
        rcases placeAll_copies_from (run_rows langOf hashOf sp cache0 files) tn
            ⟨seen0, [], [], [], []⟩ c hc with hnil | ⟨row, hrm, htext, _, hc1⟩
        · cases hnil
        · exact (hrowf row hrm htext).1 (hc1 ▸ heq)

/-- Witness for C8 at a concrete run with one unreadable file `a.pdf`: it is
hashed as null, logged unreadable, and neither indexed nor copied. -/
theorem c8_unreadable_excluded_w :
    process_pdf wLang wHash 10 ⟨"a.pdf", [""]⟩ = (srcPath "a.pdf", "", "unknown", none) ∧
    srcPath "a.pdf" ∈ wRunUnreadable.unreadable ∧
    IndexEntry.file ⟨"b.pdf", "en", "TopicA", "./sorted_pdfs/en/TopicA/b.pdf"⟩ ≠ "a.pdf" ∧
    ("./pdfs/b.pdf", "./sorted_pdfs/en/TopicA/b.pdf").1 ≠ srcPath "a.pdf" := by
  have T := c8_unreadable_excluded wLang wHash 10 wTopics wParseNone none
    wParseMapNone none [⟨"a.pdf", [""]⟩, ⟨"b.pdf", ["t"]⟩] wRunUnreadable []
    ⟨"a.pdf", [""]⟩ rfl (by decide) (by decide) (by decide) (by decide) (by decide)
  exact ⟨T.1, T.2.1,
    T.2.2.1 [⟨"b.pdf", "en", "TopicA", "./sorted_pdfs/en/TopicA/b.pdf"⟩] rfl _ (by simp),
    T.2.2.2 ("./pdfs/b.pdf", "./sorted_pdfs/en/TopicA/b.pdf") (by decide)⟩

end SortPdfs
